import Mathlib

/-!
# A verification development for `fdtd/sources.py`

This file gives a shallow embedding of the `Source` class of
`src/fdtd/sources.py` and proves properties of it.

Modelling conventions:

* Grid coordinates are integers (`ℤ`), so an endpoint is a triple `ℤ × ℤ × ℤ`.
* `numpy` float arithmetic in the line sampler is modelled by exact rational
  arithmetic (`ℚ`); `astype(int)` is C-style truncation toward zero.
* Field values, power, phase and the resolved period are real numbers (`ℝ`).
  IEEE special values have no counterpart in `ℝ`: the one place where the
  registration code can produce `NaN` (a division `0/0` in the Gaussian
  normalization, reached exactly when `vect.max() == 0`) is modelled by a
  dedicated result `RegResult.nan`, and the `IndexError` raised by
  `self.x[L // 2]` on an empty coordinate array is modelled by
  `RegResult.err`.
* The grid object is external to the file under verification
  (`fdtd/grid.py` is not part of the analysed source); the pieces of it that
  the source uses are modelled from the spec: its `inverse_permittivity`
  lookup is an arbitrary function `ℤ × ℤ × ℤ → ℝ` (the source only ever
  reads component 2), and `_handle_time` / `_handle_tuple` are unit
  resolvers that act as the identity on values already given in grid units.
-/

namespace FDTD

/-! ## Line sampling (`Source._get_location`) -/

/-- Truncation of a rational toward zero: the semantics of
`numpy.ndarray.astype(int)` applied to an exact value. -/
def truncQ (q : ℚ) : ℤ := if 0 ≤ q then ⌊q⌋ else ⌈q⌉

/-- `bd.linspace(a, b, m, endpoint=False)`: `m` evenly spaced samples
`a + i * (b - a) / m` for `i = 0, …, m - 1`. -/
def linspace (a b : ℤ) (m : ℕ) : List ℚ :=
  (List.range m).map (fun i : ℕ => (a : ℚ) + (i : ℚ) * (((b : ℚ) - (a : ℚ)) / (m : ℚ)))

/-- One axis of `_get_location`:
`bd.array(bd.linspace(a, b, m, endpoint=False), bd.int)`. -/
def axisSamples (a b : ℤ) (m : ℕ) : List ℤ := (linspace a b m).map truncQ

/-- `m = max(abs(x1 - x0), abs(y1 - y0), abs(z1 - z0))` in `_get_location`. -/
def maxSpan (p0 p1 : ℤ × ℤ × ℤ) : ℕ :=
  max (p1.1 - p0.1).natAbs (max (p1.2.1 - p0.2.1).natAbs (p1.2.2 - p0.2.2).natAbs)

/-- `Source._get_location(p0, p1)`: the three coordinate arrays `x, y, z`. -/
def getLocation (p0 p1 : ℤ × ℤ × ℤ) : List ℤ × List ℤ × List ℤ :=
  (axisSamples p0.1 p1.1 (maxSpan p0 p1),
   axisSamples p0.2.1 p1.2.1 (maxSpan p0 p1),
   axisSamples p0.2.2 p1.2.2 (maxSpan p0 p1))

/-- The three equally long coordinate arrays viewed as one list of
coordinate triples (the pairing used elementwise by `register_grid` and by
the `zip` loop of `update_E`). -/
def zipCoords (xs ys zs : List ℤ) : List (ℤ × ℤ × ℤ) := xs.zip (ys.zip zs)

/-- The coordinate triples of the line from `p0` to `p1`. -/
def coordsOf (p0 p1 : ℤ × ℤ × ℤ) : List (ℤ × ℤ × ℤ) :=
  zipCoords (getLocation p0 p1).1 (getLocation p0 p1).2.1 (getLocation p0 p1).2.2

/-! ## Registration (`Source.register_grid`) -/

/-- Squared Euclidean distance between two integer coordinate triples:
`(x_i - x_mid)**2 + (y_i - y_mid)**2 + (z_i - z_mid)**2`. -/
def sqDist (a b : ℤ × ℤ × ℤ) : ℤ :=
  (a.1 - b.1) ^ 2 + (a.2.1 - b.2.1) ^ 2 + (a.2.2 - b.2.2) ^ 2

/-- `self.vect`: squared distance of every point of the line to the point at
index `L // 2`.  (`register_grid` computes this elementwise on the `x`, `y`,
`z` arrays; on the zipped triple list this is the same computation.) -/
def vectOf (cs : List (ℤ × ℤ × ℤ)) : List ℤ :=
  cs.map (fun c => sqDist c (cs.getD (cs.length / 2) (0, 0, 0)))

/-- `self.vect.max()`.  All entries of `vect` are squares, hence nonnegative,
so folding `max` from `0` agrees with `numpy`'s `max` on the nonempty array. -/
def maxdOf (cs : List (ℤ × ℤ × ℤ)) : ℤ := (vectOf cs).foldl max 0

/-- The unnormalized Gaussian factor of `register_grid`:
`bd.exp(-self.vect ** 2 / (2 * (0.5 * self.vect.max()) ** 2))` at one entry
`d` of `vect`. -/
noncomputable def gauss (maxd d : ℤ) : ℝ :=
  Real.exp (-(d : ℝ) ^ 2 / (2 * ((0.5 : ℝ) * (maxd : ℝ)) ^ 2))

/-- The unnormalized profile array `bd.exp(-self.vect ** 2 / …)`. -/
noncomputable def rawProfile (cs : List (ℤ × ℤ × ℤ)) : List ℝ :=
  (vectOf cs).map (fun d => gauss (maxdOf cs) d)

/-- `amplitude = (self.power * self.grid.inverse_permittivity[x, y, z, 2]) ** 0.5`
at one coordinate.  `invPerm c` stands for the grid's
`inverse_permittivity[c, 2]` lookup. -/
noncomputable def amplitude (invPerm : ℤ × ℤ × ℤ → ℝ) (power : ℝ) (c : ℤ × ℤ × ℤ) : ℝ :=
  Real.sqrt (power * invPerm c)

/-- The registered profile: the Gaussian factor, divided by its total
(`self.profile /= self.profile.sum()`), then scaled elementwise by the
amplitude (`self.profile *= amplitude`). -/
noncomputable def codeProfile (invPerm : ℤ × ℤ × ℤ → ℝ) (power : ℝ)
    (cs : List (ℤ × ℤ × ℤ)) : List ℝ :=
  (cs.zip (rawProfile cs)).map
    (fun cw => cw.2 / (rawProfile cs).sum * amplitude invPerm power cw.1)

/-- The constructor arguments of `Source.__init__`, with endpoints and period
already in grid units (integer gridpoints / a real number of timesteps). -/
structure SourceSpec where
  p0 : ℤ × ℤ × ℤ
  p1 : ℤ × ℤ × ℤ
  period : ℝ
  power : ℝ
  phase_shift : ℝ

/-- Modelled from the spec: `grid._handle_time` (`fdtd/grid.py`, not part of
the analysed source) resolves a period given in physical seconds or in
timesteps into a number of timesteps; on a value already given in timesteps
it is the identity and performs no validation. -/
def handle_time (period : ℝ) : ℝ := period

/-- Modelled from the spec: `grid._handle_tuple` (`fdtd/grid.py`, not part of
the analysed source) resolves an endpoint given in meters or in gridpoints
into integer grid coordinates; on a tuple already given in gridpoints it is
the identity and performs no validation. -/
def handle_tuple (p : ℤ × ℤ × ℤ) : ℤ × ℤ × ℤ := p

/-- The state of a `Source` after `register_grid` has returned: the resolved
period and phase, the coordinate lists `self.x`, `self.y`, `self.z`, and the
profile array. -/
structure Registered where
  period : ℝ
  phase_shift : ℝ
  x : List ℤ
  y : List ℤ
  z : List ℤ
  profile : List ℝ

/-- The possible outcomes of `register_grid`:
* `err` — the Python code raises (`self.x[L // 2]` on an empty array is an
  `IndexError`; this happens exactly when the sampled line is empty);
* `nan` — the Python code completes, but `self.vect.max() == 0` makes the
  Gaussian exponent the IEEE division `-0/0 = NaN`, so every entry of the
  profile is `NaN`; these values have no counterpart in `ℝ`;
* `ok r` — registration completes with real-valued state `r`. -/
inductive RegResult where
  | err : RegResult
  | nan : RegResult
  | ok : Registered → RegResult

/-- `Source.register_grid(grid)`.  The order of operations follows the
source: resolve the period and the endpoints, sample the line, index the
midpoint (raises on an empty line), build `vect`, the Gaussian profile
(`NaN` when `vect.max() == 0`), normalize, and scale by the amplitude. -/
noncomputable def registerGrid (invPerm : ℤ × ℤ × ℤ → ℝ) (s : SourceSpec) : RegResult :=
  let period := handle_time s.period
  let p0 := handle_tuple s.p0
  let p1 := handle_tuple s.p1
  let xyz := getLocation p0 p1
  let cs := zipCoords xyz.1 xyz.2.1 xyz.2.2
  if cs.isEmpty then RegResult.err
  else if maxdOf cs = 0 then RegResult.nan
  else RegResult.ok ⟨period, s.phase_shift, xyz.1, xyz.2.1, xyz.2.2,
    codeProfile invPerm s.power cs⟩

/-! ## Per-step updates (`Source.update_E` and `Source.update_H`) -/

/-- The mutable grid state seen by the source: the electric field array `E`
and magnetic field array `H` (indexed by `[x, y, z, component]`), and the
timestep counter `grid.timesteps_passed`. -/
structure GridState where
  E : ℤ × ℤ × ℤ × ℕ → ℝ
  H : ℤ × ℤ × ℤ × ℕ → ℝ
  timesteps_passed : ℕ

/-- The temporal waveform `sin(2 * pi * q / self.period + self.phase_shift)`. -/
noncomputable def waveform (period phase : ℝ) (q : ℕ) : ℝ :=
  Real.sin (2 * Real.pi * (q : ℝ) / period + phase)

/-- The loop `for x, y, z, value in …: self.grid.E[x, y, z, 2] += value`,
abstracted over a list of (cell, increment) pairs. -/
def applyAdds (ps : List ((ℤ × ℤ × ℤ × ℕ) × ℝ)) (E : ℤ × ℤ × ℤ × ℕ → ℝ) :
    ℤ × ℤ × ℤ × ℕ → ℝ :=
  ps.foldl (fun Ef p => Function.update Ef p.1 (Ef p.1 + p.2)) E

/-- The field cell written by the source at coordinate `c`: component 2. -/
def toCell (c : ℤ × ℤ × ℤ) : ℤ × ℤ × ℤ × ℕ := (c.1, c.2.1, c.2.2, 2)

/-- `Source.update_E`: read `q = self.grid.timesteps_passed`, compute
`vect = self.profile * sin(2 * pi * q / self.period + self.phase_shift)`,
and accumulate `vect` into `E[x, y, z, 2]` over `zip(x, y, z, vect)`. -/
noncomputable def update_E (src : Registered) (g : GridState) : GridState :=
  let vect := src.profile.map
    (fun p => p * waveform src.period src.phase_shift g.timesteps_passed)
  let quads := src.x.zip (src.y.zip (src.z.zip vect))
  ⟨applyAdds (quads.map (fun t => ((t.1, t.2.1, t.2.2.1, 2), t.2.2.2))) g.E,
   g.H, g.timesteps_passed⟩

/-- `Source.update_H`: the body is `pass`. -/
def update_H (g : GridState) : GridState := g

/-- A constant inverse permittivity of 1 (vacuum), used for concrete runs. -/
def uniformPerm : ℤ × ℤ × ℤ → ℝ := fun _ => 1

end FDTD

namespace FDTD

/-! ## Basic lemmas about the line sampler -/

theorem truncQ_intCast (z : ℤ) : truncQ (z : ℚ) = z := by
  rw [truncQ]
  split <;> simp

theorem truncQ_intCast_div_natCast (p : ℤ) (m : ℕ) (hm : 0 < m) :
    truncQ ((p : ℚ) / (m : ℚ)) = p.tdiv m := by
  have hm0 : (0 : ℚ) < (m : ℚ) := by exact_mod_cast hm
  rcases le_or_lt 0 p with hp | hp
  · have hp0 : (0 : ℚ) ≤ (p : ℚ) / (m : ℚ) := by positivity
    rw [truncQ, if_pos hp0, Rat.floor_intCast_div_natCast]
    exact (Int.tdiv_eq_ediv hp (by positivity)).symm
  · have hp0 : ¬ (0 : ℚ) ≤ (p : ℚ) / (m : ℚ) := by
      rw [not_le]
      exact div_neg_of_neg_of_pos (by exact_mod_cast hp) hm0
    rw [truncQ, if_neg hp0]
    have h1 : ((p : ℚ) / (m : ℚ)) = -(((-p : ℤ) : ℚ) / (m : ℚ)) := by push_cast; ring
    rw [h1, Int.ceil_neg, Rat.floor_intCast_div_natCast]
    have h2 : (-p).tdiv (m : ℤ) = (-p) / (m : ℤ) :=
      Int.tdiv_eq_ediv (by omega) (by positivity)
    have h3 : p.tdiv (m : ℤ) = -((-p).tdiv (m : ℤ)) := by
      rw [Int.neg_tdiv, neg_neg]
    rw [h3, h2]

/-- The integer closed form of sample `i` of one axis. -/
def sampleZ (a b : ℤ) (m : ℕ) (i : ℕ) : ℤ := (a * m + i * (b - a)).tdiv m

theorem sample_eq (a b : ℤ) (m : ℕ) (hm : 0 < m) (i : ℕ) :
    truncQ ((a : ℚ) + (i : ℚ) * (((b : ℚ) - (a : ℚ)) / (m : ℚ))) = sampleZ a b m i := by
  have hm' : (m : ℚ) ≠ 0 := by positivity
  have h : (a : ℚ) + (i : ℚ) * (((b : ℚ) - (a : ℚ)) / (m : ℚ))
      = ((a * m + i * (b - a) : ℤ) : ℚ) / (m : ℚ) := by
    push_cast
    field_simp
  rw [h, truncQ_intCast_div_natCast _ _ hm, sampleZ]

theorem axisSamples_eq (a b : ℤ) (m : ℕ) (hm : 0 < m) :
    axisSamples a b m = (List.range m).map (sampleZ a b m) := by
  rw [axisSamples, linspace, List.map_map]
  apply List.map_congr_left
  intro i _hi
  exact sample_eq a b m hm i

theorem axisSamples_length (a b : ℤ) (m : ℕ) : (axisSamples a b m).length = m := by
  simp [axisSamples, linspace]

theorem coordsOf_eq (p0 p1 : ℤ × ℤ × ℤ) (hm : 0 < maxSpan p0 p1) :
    coordsOf p0 p1 = (List.range (maxSpan p0 p1)).map
      (fun i => (sampleZ p0.1 p1.1 (maxSpan p0 p1) i,
        sampleZ p0.2.1 p1.2.1 (maxSpan p0 p1) i,
        sampleZ p0.2.2 p1.2.2 (maxSpan p0 p1) i)) := by
  rw [coordsOf, getLocation, zipCoords]
  rw [axisSamples_eq _ _ _ hm, axisSamples_eq _ _ _ hm, axisSamples_eq _ _ _ hm]
  rw [List.zip_map', List.zip_map']

theorem coordsOf_length (p0 p1 : ℤ × ℤ × ℤ) :
    (coordsOf p0 p1).length = maxSpan p0 p1 := by
  simp [coordsOf, zipCoords, getLocation, axisSamples_length]

theorem registerGrid_def (invPerm : ℤ × ℤ × ℤ → ℝ) (s : SourceSpec) :
    registerGrid invPerm s =
      (if (coordsOf s.p0 s.p1).isEmpty then RegResult.err
       else if maxdOf (coordsOf s.p0 s.p1) = 0 then RegResult.nan
       else RegResult.ok ⟨s.period, s.phase_shift, (getLocation s.p0 s.p1).1,
        (getLocation s.p0 s.p1).2.1, (getLocation s.p0 s.p1).2.2,
        codeProfile invPerm s.power (coordsOf s.p0 s.p1)⟩) := rfl

end FDTD

namespace FDTD

/-! ## The axis that attains the span: unit steps and distinctness -/

theorem sampleZ_delta_natAbs (a b : ℤ) (m : ℕ) (hm : 0 < m)
    (hd : (b - a).natAbs = m) (i : ℕ) :
    sampleZ a b m i = a + i * (b - a).sign := by
  have hm0 : (m : ℤ) ≠ 0 := by exact_mod_cast hm.ne'
  have hmz : (0 : ℤ) < (m : ℤ) := by exact_mod_cast hm
  rcases Int.natAbs_eq (b - a) with h | h
  · have hba : b - a = (m : ℤ) := by rw [h, hd]
    have hsign : (b - a).sign = 1 := by
      rw [Int.sign_eq_one_iff_pos, hba]
      exact hmz
    rw [sampleZ, hsign, hba, show a * m + (i : ℤ) * m = (a + i) * m by ring,
      Int.mul_tdiv_cancel _ hm0]
    ring
  · have hba : b - a = -(m : ℤ) := by rw [h, hd]
    have hsign : (b - a).sign = -1 := by
      rw [Int.sign_eq_neg_one_iff_neg, hba]
      omega
    rw [sampleZ, hsign, hba, show a * m + (i : ℤ) * -(m : ℤ) = (a - i) * m by ring,
      Int.mul_tdiv_cancel _ hm0]
    ring

theorem maxSpan_attained (p0 p1 : ℤ × ℤ × ℤ) :
    (p1.1 - p0.1).natAbs = maxSpan p0 p1 ∨
    (p1.2.1 - p0.2.1).natAbs = maxSpan p0 p1 ∨
    (p1.2.2 - p0.2.2).natAbs = maxSpan p0 p1 := by
  rw [maxSpan]
  omega

theorem coordsOf_nodup (p0 p1 : ℤ × ℤ × ℤ) (hm : 0 < maxSpan p0 p1) :
    (coordsOf p0 p1).Nodup := by
  rw [coordsOf_eq p0 p1 hm]
  apply List.Nodup.map_on ?_ (List.nodup_range _)
  intro i _hi j _hj hij
  rcases maxSpan_attained p0 p1 with hax | hax | hax
  · have hs : (p1.1 - p0.1).sign ≠ 0 := by
      rw [Ne, Int.sign_eq_zero_iff_zero]
      omega
    have h1 := congrArg Prod.fst hij
    simp only at h1
    rw [sampleZ_delta_natAbs _ _ _ hm hax i, sampleZ_delta_natAbs _ _ _ hm hax j] at h1
    have h2 : (i : ℤ) * (p1.1 - p0.1).sign = (j : ℤ) * (p1.1 - p0.1).sign := by linarith
    exact_mod_cast mul_right_cancel₀ hs h2
  · have hs : (p1.2.1 - p0.2.1).sign ≠ 0 := by
      rw [Ne, Int.sign_eq_zero_iff_zero]
      omega
    have h1 := congrArg (fun t => t.2.1) hij
    simp only at h1
    rw [sampleZ_delta_natAbs _ _ _ hm hax i, sampleZ_delta_natAbs _ _ _ hm hax j] at h1
    have h2 : (i : ℤ) * (p1.2.1 - p0.2.1).sign = (j : ℤ) * (p1.2.1 - p0.2.1).sign := by linarith
    exact_mod_cast mul_right_cancel₀ hs h2
  · have hs : (p1.2.2 - p0.2.2).sign ≠ 0 := by
      rw [Ne, Int.sign_eq_zero_iff_zero]
      omega
    have h1 := congrArg (fun t => t.2.2) hij
    simp only at h1
    rw [sampleZ_delta_natAbs _ _ _ hm hax i, sampleZ_delta_natAbs _ _ _ hm hax j] at h1
    have h2 : (i : ℤ) * (p1.2.2 - p0.2.2).sign = (j : ℤ) * (p1.2.2 - p0.2.2).sign := by linarith
    exact_mod_cast mul_right_cancel₀ hs h2

end FDTD

namespace FDTD

/-! ## The accumulation loop -/

theorem applyAdds_of_not_mem (ps : List ((ℤ × ℤ × ℤ × ℕ) × ℝ)) (E : ℤ × ℤ × ℤ × ℕ → ℝ)
    (c : ℤ × ℤ × ℤ × ℕ) (hc : c ∉ ps.map Prod.fst) : applyAdds ps E c = E c := by
  induction ps generalizing E with
  | nil => rfl
  | cons p ps ih =>
    simp only [List.map_cons, List.mem_cons, not_or] at hc
    rw [applyAdds, List.foldl_cons]
    rw [show List.foldl (fun Ef p => Function.update Ef p.1 (Ef p.1 + p.2))
      (Function.update E p.1 (E p.1 + p.2)) ps
      = applyAdds ps (Function.update E p.1 (E p.1 + p.2)) from rfl]
    rw [ih _ (by simpa using hc.2)]
    exact Function.update_noteq hc.1 _ _

theorem applyAdds_of_mem (ps : List ((ℤ × ℤ × ℤ × ℕ) × ℝ)) (E : ℤ × ℤ × ℤ × ℕ → ℝ)
    (k : ℤ × ℤ × ℤ × ℕ) (v : ℝ) (hnd : (ps.map Prod.fst).Nodup) (hkv : (k, v) ∈ ps) :
    applyAdds ps E k = E k + v := by
  induction ps generalizing E with
  | nil => exact absurd hkv (List.not_mem_nil _)
  | cons p ps ih =>
    simp only [List.map_cons, List.nodup_cons] at hnd
    rw [applyAdds, List.foldl_cons]
    rw [show List.foldl (fun Ef p => Function.update Ef p.1 (Ef p.1 + p.2))
      (Function.update E p.1 (E p.1 + p.2)) ps
      = applyAdds ps (Function.update E p.1 (E p.1 + p.2)) from rfl]
    rcases List.mem_cons.mp hkv with heq | hmem
    · have hk : p.1 = k := by rw [← heq]
      have hv : p.2 = v := by rw [← heq]
      rw [hk] at hnd ⊢
      rw [applyAdds_of_not_mem _ _ _ hnd.1, Function.update_same, hv]
    · have hk : k ≠ p.1 := by
        intro hcontra
        exact hnd.1 (hcontra ▸ List.mem_map_of_mem Prod.fst hmem)
      rw [ih _ hnd.2 hmem, Function.update_noteq hk]

end FDTD

namespace FDTD

/-! ## Plumbing: elements and keys of the zipped update list -/

theorem toCell_injective : Function.Injective toCell := by
  intro a b h
  obtain ⟨a1, a2, a3⟩ := a
  obtain ⟨b1, b2, b3⟩ := b
  simp only [toCell, Prod.mk.injEq] at h
  simp [h.1, h.2.1, h.2.2.1]

theorem quadList_length (xs ys zs : List ℤ) (vect : List ℝ)
    (hy : ys.length = xs.length) (hz : zs.length = xs.length)
    (hv : vect.length = xs.length) :
    ((xs.zip (ys.zip (zs.zip vect))).map
      (fun t => ((t.1, t.2.1, t.2.2.1, (2 : ℕ)), t.2.2.2))).length = xs.length := by
  simp [List.length_zip, hy, hz, hv]

theorem quadList_keys (xs ys zs : List ℤ) (vect : List ℝ)
    (hy : ys.length = xs.length) (hz : zs.length = xs.length)
    (hv : vect.length = xs.length) :
    (((xs.zip (ys.zip (zs.zip vect))).map
      (fun t => ((t.1, t.2.1, t.2.2.1, (2 : ℕ)), t.2.2.2))).map Prod.fst)
      = (zipCoords xs ys zs).map toCell := by
  apply List.ext_getElem
  · simp [zipCoords, List.length_zip, hy, hz, hv]
  · intro n h1 h2
    simp [zipCoords, toCell, List.getElem_map, List.getElem_zip]

theorem quadList_mem (xs ys zs : List ℤ) (vect : List ℝ)
    (hy : ys.length = xs.length) (hz : zs.length = xs.length)
    (hv : vect.length = xs.length) (i : ℕ) (hi : i < xs.length) :
    ((xs.getD i 0, ys.getD i 0, zs.getD i 0, (2 : ℕ)), vect.getD i 0)
      ∈ (xs.zip (ys.zip (zs.zip vect))).map
        (fun t => ((t.1, t.2.1, t.2.2.1, (2 : ℕ)), t.2.2.2)) := by
  have hlen : i < ((xs.zip (ys.zip (zs.zip vect))).map
      (fun t => ((t.1, t.2.1, t.2.2.1, (2 : ℕ)), t.2.2.2))).length := by
    rw [quadList_length xs ys zs vect hy hz hv]
    exact hi
  have hmem := List.getElem_mem hlen
  have hval : ((xs.zip (ys.zip (zs.zip vect))).map
      (fun t => ((t.1, t.2.1, t.2.2.1, (2 : ℕ)), t.2.2.2))).get ⟨i, hlen⟩
      = ((xs.getD i 0, ys.getD i 0, zs.getD i 0, (2 : ℕ)), vect.getD i 0) := by
    have hiy : i < ys.length := by omega
    have hiz : i < zs.length := by omega
    have hiv : i < vect.length := by omega
    rw [List.get_eq_getElem, List.getD_eq_getElem _ _ hi, List.getD_eq_getElem _ _ hiy,
      List.getD_eq_getElem _ _ hiz, List.getD_eq_getElem _ _ hiv]
    simp only [List.getElem_map, List.getElem_zip]
  rw [List.get_eq_getElem] at hval
  rw [hval] at hmem
  exact hmem

theorem coordsOf_getD (p0 p1 : ℤ × ℤ × ℤ) (i : ℕ) (hi : i < maxSpan p0 p1) :
    (coordsOf p0 p1).getD i (0, 0, 0)
      = ((getLocation p0 p1).1.getD i 0, (getLocation p0 p1).2.1.getD i 0,
         (getLocation p0 p1).2.2.getD i 0) := by
  have hx : i < (getLocation p0 p1).1.length := by
    rw [getLocation, axisSamples_length]
    exact hi
  have hy : i < (getLocation p0 p1).2.1.length := by
    rw [getLocation, axisSamples_length]
    exact hi
  have hz : i < (getLocation p0 p1).2.2.length := by
    rw [getLocation, axisSamples_length]
    exact hi
  have hc : i < (coordsOf p0 p1).length := by
    rw [coordsOf_length]
    exact hi
  rw [List.getD_eq_getElem _ _ hc, List.getD_eq_getElem _ _ hx,
    List.getD_eq_getElem _ _ hy, List.getD_eq_getElem _ _ hz]
  simp [coordsOf, zipCoords, List.getElem_zip]

end FDTD

namespace FDTD

theorem update_E_E (src : Registered) (g : GridState) :
    (update_E src g).E
      = applyAdds ((src.x.zip (src.y.zip (src.z.zip (src.profile.map
          (fun p => p * waveform src.period src.phase_shift g.timesteps_passed))))).map
          (fun t => ((t.1, t.2.1, t.2.2.1, (2 : ℕ)), t.2.2.2))) g.E := rfl

/-- C1: with `q` the grid's current timestep count, one call to `update_E`
adds exactly `profile_i * sin(2*pi*q/period + phase_shift)` into the field
array at cell `(x_i, y_i, z_i, 2)` for every index `i` of the sampled line
(an accumulation on top of the previous value), and leaves every cell that
is not one of the source's component-2 cells unchanged. -/
theorem claim_C1 (p0 p1 : ℤ × ℤ × ℤ) (hm : 0 < maxSpan p0 p1)
    (period phase : ℝ) (profile : List ℝ)
    (hpl : profile.length = maxSpan p0 p1) (g : GridState) :
    (∀ i, i < maxSpan p0 p1 →
      (update_E ⟨period, phase, (getLocation p0 p1).1, (getLocation p0 p1).2.1,
          (getLocation p0 p1).2.2, profile⟩ g).E
          (toCell ((coordsOf p0 p1).getD i (0, 0, 0)))
        = g.E (toCell ((coordsOf p0 p1).getD i (0, 0, 0)))
          + profile.getD i 0
            * Real.sin (2 * Real.pi * (g.timesteps_passed : ℝ) / period + phase))
    ∧ (∀ c, c ∉ (coordsOf p0 p1).map toCell →
      (update_E ⟨period, phase, (getLocation p0 p1).1, (getLocation p0 p1).2.1,
          (getLocation p0 p1).2.2, profile⟩ g).E c = g.E c) := by
  have hx : (getLocation p0 p1).1.length = maxSpan p0 p1 := axisSamples_length _ _ _
  have hy : (getLocation p0 p1).2.1.length = (getLocation p0 p1).1.length := by
    rw [hx]
    exact axisSamples_length _ _ _
  have hz : (getLocation p0 p1).2.2.length = (getLocation p0 p1).1.length := by
    rw [hx]
    exact axisSamples_length _ _ _
  have hv : (profile.map
      (fun p => p * waveform period phase g.timesteps_passed)).length
      = (getLocation p0 p1).1.length := by
    rw [List.length_map, hpl, hx]
  have hnd : ((((getLocation p0 p1).1.zip ((getLocation p0 p1).2.1.zip
      ((getLocation p0 p1).2.2.zip (profile.map
        (fun p => p * waveform period phase g.timesteps_passed))))).map
      (fun t => ((t.1, t.2.1, t.2.2.1, (2 : ℕ)), t.2.2.2))).map Prod.fst).Nodup := by
    rw [quadList_keys _ _ _ _ hy hz hv]
    exact (coordsOf_nodup p0 p1 hm).map toCell_injective
  constructor
  · intro i hi
    have hix : i < (getLocation p0 p1).1.length := by rw [hx]; exact hi
    have hmem := quadList_mem (getLocation p0 p1).1 (getLocation p0 p1).2.1
      (getLocation p0 p1).2.2 (profile.map
        (fun p => p * waveform period phase g.timesteps_passed)) hy hz hv i hix
    have hval : (profile.map
        (fun p => p * waveform period phase g.timesteps_passed)).getD i 0
        = profile.getD i 0
          * Real.sin (2 * Real.pi * (g.timesteps_passed : ℝ) / period + phase) := by
      have hip : i < profile.length := by rw [hpl]; exact hi
      have hiv : i < (profile.map
          (fun p => p * waveform period phase g.timesteps_passed)).length := by
        rw [List.length_map]
        exact hip
      rw [List.getD_eq_getElem _ _ hiv, List.getD_eq_getElem _ _ hip,
        List.getElem_map]
      simp only [waveform]
    rw [coordsOf_getD p0 p1 i hi, update_E_E]
    have := applyAdds_of_mem _ g.E _ _ hnd hmem
    simp only [toCell]
    rw [hval] at this
    exact this
  · intro c hc
    rw [update_E_E]
    apply applyAdds_of_not_mem
    rw [quadList_keys _ _ _ _ hy hz hv]
    exact hc

end FDTD

namespace FDTD

/-- A concrete grid state for witnesses: zero fields, counter at 5. -/
noncomputable def gZero : GridState := ⟨fun _ => 0, fun _ => 0, 5⟩

theorem claim_C1_witness :
    0 < maxSpan (0, 0, 0) (3, 0, 0) ∧
    ([(1 : ℝ), 2, 3].length = maxSpan (0, 0, 0) (3, 0, 0)) ∧
    ((∀ i, i < maxSpan (0, 0, 0) (3, 0, 0) →
      (update_E ⟨4, 0, (getLocation (0, 0, 0) (3, 0, 0)).1,
          (getLocation (0, 0, 0) (3, 0, 0)).2.1,
          (getLocation (0, 0, 0) (3, 0, 0)).2.2, [(1 : ℝ), 2, 3]⟩ gZero).E
          (toCell ((coordsOf (0, 0, 0) (3, 0, 0)).getD i (0, 0, 0)))
        = gZero.E (toCell ((coordsOf (0, 0, 0) (3, 0, 0)).getD i (0, 0, 0)))
          + [(1 : ℝ), 2, 3].getD i 0
            * Real.sin (2 * Real.pi * (gZero.timesteps_passed : ℝ) / 4 + 0))
    ∧ (∀ c, c ∉ (coordsOf (0, 0, 0) (3, 0, 0)).map toCell →
      (update_E ⟨4, 0, (getLocation (0, 0, 0) (3, 0, 0)).1,
          (getLocation (0, 0, 0) (3, 0, 0)).2.1,
          (getLocation (0, 0, 0) (3, 0, 0)).2.2, [(1 : ℝ), 2, 3]⟩ gZero).E c
        = gZero.E c)) :=
  ⟨by decide, by decide,
    claim_C1 (0, 0, 0) (3, 0, 0) (by decide) 4 0 [(1 : ℝ), 2, 3] (by decide) gZero⟩

/-- C9: `update_H` is the identity on the whole grid state: it mutates no
field array value and no other grid or source state. -/
theorem claim_C9 (g : GridState) : update_H g = g := rfl

theorem waveform_add_period (n : ℤ) (hn : 0 < n) (phase : ℝ) (q : ℕ) :
    waveform (n : ℝ) phase (q + n.toNat) = waveform (n : ℝ) phase q := by
  have hn0 : ((n : ℝ)) ≠ 0 := by
    have : (0 : ℝ) < (n : ℝ) := by exact_mod_cast hn
    exact this.ne'
  have hcast : ((q + n.toNat : ℕ) : ℝ) = (q : ℝ) + (n : ℝ) := by
    have h1 : ((n.toNat : ℕ) : ℝ) = ((n : ℤ) : ℝ) := by
      exact_mod_cast congrArg (Int.cast : ℤ → ℝ) (Int.toNat_of_nonneg hn.le)
    push_cast
    rw [h1]
  simp only [waveform]
  rw [hcast]
  have harg : 2 * Real.pi * ((q : ℝ) + (n : ℝ)) / (n : ℝ) + phase
      = (2 * Real.pi * (q : ℝ) / (n : ℝ) + phase) + 2 * Real.pi := by
    field_simp
    ring
  rw [harg, Real.sin_add_two_pi]

/-- C8: for a source whose resolved period is a positive integer `n`, the
electric-field update performed at timestep count `q + n` is identical to
the one performed at `q` (on every grid cell): the injected values are
periodic in the timestep counter. -/
theorem claim_C8 (src : Registered) (n : ℤ) (hn : 0 < n) (hper : src.period = (n : ℝ))
    (E H : ℤ × ℤ × ℤ × ℕ → ℝ) (q : ℕ) :
    (update_E src ⟨E, H, q + n.toNat⟩).E = (update_E src ⟨E, H, q⟩).E := by
  rw [update_E_E, update_E_E]
  dsimp only
  rw [hper, waveform_add_period n hn]

theorem claim_C8_witness :
    0 < (1 : ℤ) ∧ (Registered.mk 1 0 [0] [0] [0] [1]).period = ((1 : ℤ) : ℝ) ∧
    (update_E (Registered.mk 1 0 [0] [0] [0] [1])
        ⟨fun _ => 0, fun _ => 0, 5 + (1 : ℤ).toNat⟩).E
      = (update_E (Registered.mk 1 0 [0] [0] [0] [1]) ⟨fun _ => 0, fun _ => 0, 5⟩).E :=
  ⟨by decide, by simp,
    claim_C8 (Registered.mk 1 0 [0] [0] [0] [1]) 1 (by decide) (by simp)
      (fun _ => 0) (fun _ => 0) 5⟩

/-- C6: if the two endpoints resolve to equal coordinates, `register_grid`
raises (the empty sampled line makes `self.x[L // 2]` an `IndexError`), so
registration ends in an error rather than a usable point set. -/
theorem claim_C6 (invPerm : ℤ × ℤ × ℤ → ℝ) (s : SourceSpec) (h : s.p0 = s.p1) :
    registerGrid invPerm s = RegResult.err := by
  rw [registerGrid_def]
  have hm : maxSpan s.p0 s.p1 = 0 := by
    rw [h, maxSpan]
    simp
  have hcs : coordsOf s.p0 s.p1 = [] :=
    List.length_eq_zero.mp (hm ▸ coordsOf_length s.p0 s.p1)
  rw [hcs]
  rfl

theorem claim_C6_witness :
    (SourceSpec.mk (1, 2, 3) (1, 2, 3) 1 1 0).p0
      = (SourceSpec.mk (1, 2, 3) (1, 2, 3) 1 1 0).p1 ∧
    registerGrid uniformPerm (SourceSpec.mk (1, 2, 3) (1, 2, 3) 1 1 0) = RegResult.err :=
  ⟨by decide, claim_C6 uniformPerm (SourceSpec.mk (1, 2, 3) (1, 2, 3) 1 1 0) (by decide)⟩

end FDTD

namespace FDTD

theorem axisSamples_getD (a b : ℤ) (m : ℕ) (i : ℕ) (hi : i < m) :
    (axisSamples a b m).getD i 0
      = truncQ ((a : ℚ) + (i : ℚ) * (((b : ℚ) - (a : ℚ)) / (m : ℚ))) := by
  have hlen : i < (axisSamples a b m).length := by
    rw [axisSamples_length]
    exact hi
  rw [List.getD_eq_getElem _ _ hlen]
  simp [axisSamples, linspace, List.getElem_map, List.getElem_range]

/-- C3: for endpoints with nonzero span, the line sampler produces exactly
`L = max(|x1-x0|, |y1-y0|, |z1-z0|)` ordered coordinate triples; sample `i`
on each axis is `a0 + i*(a1-a0)/L` truncated to an integer grid index, for
`i = 0, …, L-1`, so `p0` is included and the exact `p1` endpoint excluded. -/
theorem claim_C3 (p0 p1 : ℤ × ℤ × ℤ) (hm : 0 < maxSpan p0 p1) :
    (coordsOf p0 p1).length = maxSpan p0 p1 ∧
    (coordsOf p0 p1).getD 0 (0, 0, 0) = p0 ∧
    (∀ i, i < maxSpan p0 p1 →
      (coordsOf p0 p1).getD i (0, 0, 0)
        = (truncQ ((p0.1 : ℚ) + (i : ℚ) * (((p1.1 : ℚ) - (p0.1 : ℚ)) / (maxSpan p0 p1 : ℚ))),
           truncQ ((p0.2.1 : ℚ) + (i : ℚ) * (((p1.2.1 : ℚ) - (p0.2.1 : ℚ)) / (maxSpan p0 p1 : ℚ))),
           truncQ ((p0.2.2 : ℚ) + (i : ℚ) * (((p1.2.2 : ℚ) - (p0.2.2 : ℚ)) / (maxSpan p0 p1 : ℚ))))) := by
  have hform : ∀ i, i < maxSpan p0 p1 →
      (coordsOf p0 p1).getD i (0, 0, 0)
        = (truncQ ((p0.1 : ℚ) + (i : ℚ) * (((p1.1 : ℚ) - (p0.1 : ℚ)) / (maxSpan p0 p1 : ℚ))),
           truncQ ((p0.2.1 : ℚ) + (i : ℚ) * (((p1.2.1 : ℚ) - (p0.2.1 : ℚ)) / (maxSpan p0 p1 : ℚ))),
           truncQ ((p0.2.2 : ℚ) + (i : ℚ) * (((p1.2.2 : ℚ) - (p0.2.2 : ℚ)) / (maxSpan p0 p1 : ℚ)))) := by
    intro i hi
    rw [coordsOf_getD p0 p1 i hi]
    rw [show (getLocation p0 p1).1 = axisSamples p0.1 p1.1 (maxSpan p0 p1) from rfl,
      show (getLocation p0 p1).2.1 = axisSamples p0.2.1 p1.2.1 (maxSpan p0 p1) from rfl,
      show (getLocation p0 p1).2.2 = axisSamples p0.2.2 p1.2.2 (maxSpan p0 p1) from rfl]
    rw [axisSamples_getD _ _ _ _ hi, axisSamples_getD _ _ _ _ hi, axisSamples_getD _ _ _ _ hi]
  refine ⟨coordsOf_length p0 p1, ?_, hform⟩
  rw [hform 0 hm]
  simp [truncQ_intCast]

theorem claim_C3_witness :
    0 < maxSpan (0, 0, 0) (2, 3, 0) ∧
    ((coordsOf (0, 0, 0) (2, 3, 0)).length = maxSpan (0, 0, 0) (2, 3, 0) ∧
    (coordsOf (0, 0, 0) (2, 3, 0)).getD 0 (0, 0, 0) = (0, 0, 0) ∧
    (∀ i, i < maxSpan (0, 0, 0) (2, 3, 0) →
      (coordsOf (0, 0, 0) (2, 3, 0)).getD i (0, 0, 0)
        = (truncQ (((0 : ℤ) : ℚ) + (i : ℚ) * ((((2 : ℤ) : ℚ) - ((0 : ℤ) : ℚ)) / (maxSpan (0, 0, 0) (2, 3, 0) : ℚ))),
           truncQ (((0 : ℤ) : ℚ) + (i : ℚ) * ((((3 : ℤ) : ℚ) - ((0 : ℤ) : ℚ)) / (maxSpan (0, 0, 0) (2, 3, 0) : ℚ))),
           truncQ (((0 : ℤ) : ℚ) + (i : ℚ) * ((((0 : ℤ) : ℚ) - ((0 : ℤ) : ℚ)) / (maxSpan (0, 0, 0) (2, 3, 0) : ℚ)))))) :=
  ⟨by decide, claim_C3 (0, 0, 0) (2, 3, 0) (by decide)⟩

/-- C10: for endpoints with nonzero span `L`, on every axis whose absolute
delta equals `L` the sampled coordinates are `a0 + i * sign(a1 - a0)` with
`sign(a1 - a0) = ±1` (consecutive integers, step exactly `+1` or `-1`), and
consequently the `L` generated coordinate triples are pairwise distinct, so
no grid cell receives a double contribution from one source in one step. -/
theorem claim_C10 (p0 p1 : ℤ × ℤ × ℤ) (hm : 0 < maxSpan p0 p1) :
    (∀ a b : ℤ, (b - a).natAbs = maxSpan p0 p1 →
      ((b - a).sign = 1 ∨ (b - a).sign = -1) ∧
      ∀ i, i < maxSpan p0 p1 →
        (axisSamples a b (maxSpan p0 p1)).getD i 0 = a + i * (b - a).sign) ∧
    (coordsOf p0 p1).Nodup := by
  constructor
  · intro a b hab
    constructor
    · have hne : b - a ≠ 0 := by omega
      rcases lt_trichotomy (b - a) 0 with h | h | h
      · exact Or.inr (Int.sign_eq_neg_one_iff_neg.mpr h)
      · exact absurd h hne
      · exact Or.inl (Int.sign_eq_one_iff_pos.mpr h)
    · intro i hi
      rw [axisSamples_getD _ _ _ _ hi, sample_eq _ _ _ hm,
        sampleZ_delta_natAbs _ _ _ hm hab]
  · exact coordsOf_nodup p0 p1 hm

theorem claim_C10_witness :
    0 < maxSpan (0, 0, 0) (2, 3, 0) ∧
    ((∀ a b : ℤ, (b - a).natAbs = maxSpan (0, 0, 0) (2, 3, 0) →
      ((b - a).sign = 1 ∨ (b - a).sign = -1) ∧
      ∀ i, i < maxSpan (0, 0, 0) (2, 3, 0) →
        (axisSamples a b (maxSpan (0, 0, 0) (2, 3, 0))).getD i 0 = a + i * (b - a).sign) ∧
    (coordsOf (0, 0, 0) (2, 3, 0)).Nodup) :=
  ⟨by decide, claim_C10 (0, 0, 0) (2, 3, 0) (by decide)⟩

end FDTD

namespace FDTD

/-! ## The profile algorithm as the spec words it -/

/-- The reference profile construction, following the spec's words: per
coordinate `i`, `d_i` is the squared Euclidean distance in index space from
coordinate `i` to the coordinate at index `L // 2`; the unnormalized weight
is `w_i = exp(-d_i^2 / (2 * (0.5 * max_j d_j)^2))`; the weights are
normalized by their total; the final profile is
`profile_i = w_i * sqrt(power * inverse_permittivity at coordinate i)`. -/
noncomputable def specGaussProfile (invPerm : ℤ × ℤ × ℤ → ℝ) (power : ℝ)
    (cs : List (ℤ × ℤ × ℤ)) : List ℝ :=
  let L := cs.length
  let mid := cs.getD (L / 2) (0, 0, 0)
  let d : ℕ → ℤ := fun i => sqDist (cs.getD i (0, 0, 0)) mid
  let maxd : ℤ := ((List.range L).map d).foldl max 0
  let w : ℕ → ℝ := fun i =>
    Real.exp (-((d i : ℝ)) ^ 2 / (2 * ((1 / 2 : ℝ) * (maxd : ℝ)) ^ 2))
  let total : ℝ := ((List.range L).map w).sum
  (List.range L).map
    (fun i => w i / total * Real.sqrt (power * invPerm (cs.getD i (0, 0, 0))))

theorem range_map_getD {α : Type} (l : List α) (d : α) :
    (List.range l.length).map (fun i => l.getD i d) = l := by
  apply List.ext_getElem
  · simp
  · intro n h1 h2
    simp only [List.getElem_map, List.getElem_range]
    exact List.getD_eq_getElem l d h2

theorem init_le_foldl_max (l : List ℤ) (a : ℤ) : a ≤ l.foldl max a := by
  induction l generalizing a with
  | nil => exact le_refl a
  | cons b t ih =>
    rw [List.foldl_cons]
    exact le_trans (le_max_left a b) (ih (max a b))

theorem le_foldl_max (l : List ℤ) (a x : ℤ) (hx : x ∈ l) : x ≤ l.foldl max a := by
  induction l generalizing a with
  | nil => exact absurd hx (List.not_mem_nil x)
  | cons b t ih =>
    rw [List.foldl_cons]
    rcases List.mem_cons.mp hx with h | h
    · subst h
      exact le_trans (le_max_right a x) (init_le_foldl_max t (max a x))
    · exact ih (max a b) h

theorem sum_map_div (l : List ℝ) (s : ℝ) : (l.map (fun w => w / s)).sum = l.sum / s := by
  induction l with
  | nil => simp
  | cons b t ih =>
    rw [List.map_cons, List.sum_cons, List.sum_cons, ih, add_div]

theorem rawProfile_length (cs : List (ℤ × ℤ × ℤ)) :
    (rawProfile cs).length = cs.length := by
  simp [rawProfile, vectOf]

theorem rawProfile_sum_pos (cs : List (ℤ × ℤ × ℤ)) (h : cs ≠ []) :
    0 < (rawProfile cs).sum := by
  apply List.sum_pos
  · intro x hx
    obtain ⟨d, _, hd⟩ := List.mem_map.mp hx
    rw [← hd, gauss]
    exact Real.exp_pos _
  · intro hcon
    apply h
    have := congrArg List.length hcon
    rw [rawProfile_length] at this
    exact List.length_eq_zero.mp this

end FDTD

namespace FDTD

theorem codeProfile_eq_spec (invPerm : ℤ × ℤ × ℤ → ℝ) (power : ℝ)
    (cs : List (ℤ × ℤ × ℤ)) :
    codeProfile invPerm power cs = specGaussProfile invPerm power cs := by
  have hvect : (List.range cs.length).map
      (fun i => sqDist (cs.getD i (0, 0, 0)) (cs.getD (cs.length / 2) (0, 0, 0)))
      = vectOf cs := by
    apply List.ext_getElem
    · simp [vectOf]
    · intro n h1 h2
      have hn : n < cs.length := by simpa using h1
      simp only [List.getElem_map, List.getElem_range, vectOf]
      rw [List.getD_eq_getElem _ _ hn]
  have hmax : ((List.range cs.length).map
      (fun i => sqDist (cs.getD i (0, 0, 0)) (cs.getD (cs.length / 2) (0, 0, 0)))).foldl max 0
      = maxdOf cs := by
    rw [hvect]
    rfl
  have hraw : rawProfile cs = (List.range cs.length).map
      (fun i => gauss (maxdOf cs)
        (sqDist (cs.getD i (0, 0, 0)) (cs.getD (cs.length / 2) (0, 0, 0)))) := by
    apply List.ext_getElem
    · simp [rawProfile, vectOf]
    · intro n h1 h2
      have hn : n < cs.length := by simpa [rawProfile, vectOf] using h1
      simp only [rawProfile, vectOf, List.getElem_map, List.getElem_range]
      rw [List.getD_eq_getElem _ _ hn]
  have hfun : ∀ x : ℤ, gauss (maxdOf cs) x
      = Real.exp (-((x : ℝ)) ^ 2 / (2 * ((1 / 2 : ℝ) * ((maxdOf cs : ℤ) : ℝ)) ^ 2)) := by
    intro x
    rw [gauss]
    norm_num
  apply List.ext_getElem
  · simp [codeProfile, specGaussProfile, rawProfile, vectOf, List.length_zip]
  · intro n h1 h2
    have hn : n < cs.length := by
      simpa [codeProfile, List.length_zip, rawProfile, vectOf] using h1
    simp only [codeProfile, specGaussProfile, amplitude, List.getElem_map,
      List.getElem_zip, List.getElem_range]
    simp only [hraw, List.getElem_map, List.getElem_range]
    rw [List.getD_eq_getElem _ _ hn, hmax]
    simp only [hfun]

end FDTD

namespace FDTD

theorem coordsOf_getD_sampleZ (p0 p1 : ℤ × ℤ × ℤ) (hm : 0 < maxSpan p0 p1)
    (i : ℕ) (hi : i < maxSpan p0 p1) :
    (coordsOf p0 p1).getD i (0, 0, 0)
      = (sampleZ p0.1 p1.1 (maxSpan p0 p1) i, sampleZ p0.2.1 p1.2.1 (maxSpan p0 p1) i,
         sampleZ p0.2.2 p1.2.2 (maxSpan p0 p1) i) := by
  have hc : i < (coordsOf p0 p1).length := by
    rw [coordsOf_length]
    exact hi
  rw [List.getD_eq_getElem _ _ hc]
  simp only [coordsOf_eq p0 p1 hm, List.getElem_map, List.getElem_range]

theorem maxdOf_pos (p0 p1 : ℤ × ℤ × ℤ) (hL : 2 ≤ maxSpan p0 p1) :
    0 < maxdOf (coordsOf p0 p1) := by
  have hm : 0 < maxSpan p0 p1 := by omega
  have hlen : (coordsOf p0 p1).length = maxSpan p0 p1 := coordsOf_length p0 p1
  have hmidlt : maxSpan p0 p1 / 2 < maxSpan p0 p1 := Nat.div_lt_self hm (by omega)
  have hmid1 : 1 ≤ maxSpan p0 p1 / 2 := by omega
  have hget0 := coordsOf_getD_sampleZ p0 p1 hm 0 hm
  have hgetmid := coordsOf_getD_sampleZ p0 p1 hm (maxSpan p0 p1 / 2) hmidlt
  have hpos : 0 < sqDist ((coordsOf p0 p1).getD 0 (0, 0, 0))
      ((coordsOf p0 p1).getD ((coordsOf p0 p1).length / 2) (0, 0, 0)) := by
    rw [hlen, hget0, hgetmid]
    simp only [sqDist]
    rcases maxSpan_attained p0 p1 with hax | hax | hax
    · have h1 := sampleZ_delta_natAbs p0.1 p1.1 (maxSpan p0 p1) hm hax 0
      have h2 := sampleZ_delta_natAbs p0.1 p1.1 (maxSpan p0 p1) hm hax (maxSpan p0 p1 / 2)
      have hxd : sampleZ p0.1 p1.1 (maxSpan p0 p1) 0
          - sampleZ p0.1 p1.1 (maxSpan p0 p1) (maxSpan p0 p1 / 2) ≠ 0 := by
        rw [h1, h2]
        have hne : p1.1 - p0.1 ≠ 0 := by omega
        rcases lt_trichotomy (p1.1 - p0.1) 0 with h | h | h
        · rw [Int.sign_eq_neg_one_iff_neg.mpr h]
          omega
        · exact absurd h hne
        · rw [Int.sign_eq_one_iff_pos.mpr h]
          omega
      positivity
    · have h1 := sampleZ_delta_natAbs p0.2.1 p1.2.1 (maxSpan p0 p1) hm hax 0
      have h2 := sampleZ_delta_natAbs p0.2.1 p1.2.1 (maxSpan p0 p1) hm hax (maxSpan p0 p1 / 2)
      have hxd : sampleZ p0.2.1 p1.2.1 (maxSpan p0 p1) 0
          - sampleZ p0.2.1 p1.2.1 (maxSpan p0 p1) (maxSpan p0 p1 / 2) ≠ 0 := by
        rw [h1, h2]
        have hne : p1.2.1 - p0.2.1 ≠ 0 := by omega
        rcases lt_trichotomy (p1.2.1 - p0.2.1) 0 with h | h | h
        · rw [Int.sign_eq_neg_one_iff_neg.mpr h]
          omega
        · exact absurd h hne
        · rw [Int.sign_eq_one_iff_pos.mpr h]
          omega
      positivity
    · have h1 := sampleZ_delta_natAbs p0.2.2 p1.2.2 (maxSpan p0 p1) hm hax 0
      have h2 := sampleZ_delta_natAbs p0.2.2 p1.2.2 (maxSpan p0 p1) hm hax (maxSpan p0 p1 / 2)
      have hxd : sampleZ p0.2.2 p1.2.2 (maxSpan p0 p1) 0
          - sampleZ p0.2.2 p1.2.2 (maxSpan p0 p1) (maxSpan p0 p1 / 2) ≠ 0 := by
        rw [h1, h2]
        have hne : p1.2.2 - p0.2.2 ≠ 0 := by omega
        rcases lt_trichotomy (p1.2.2 - p0.2.2) 0 with h | h | h
        · rw [Int.sign_eq_neg_one_iff_neg.mpr h]
          omega
        · exact absurd h hne
        · rw [Int.sign_eq_one_iff_pos.mpr h]
          omega
      positivity
  have hmem : sqDist ((coordsOf p0 p1).getD 0 (0, 0, 0))
      ((coordsOf p0 p1).getD ((coordsOf p0 p1).length / 2) (0, 0, 0))
      ∈ vectOf (coordsOf p0 p1) := by
    have h0 : 0 < (coordsOf p0 p1).length := by omega
    have h0v : 0 < (vectOf (coordsOf p0 p1)).length := by simpa [vectOf] using h0
    have hmm := List.getElem_mem h0v
    have hval : (vectOf (coordsOf p0 p1)).get ⟨0, h0v⟩
        = sqDist ((coordsOf p0 p1).getD 0 (0, 0, 0))
          ((coordsOf p0 p1).getD ((coordsOf p0 p1).length / 2) (0, 0, 0)) := by
      rw [List.get_eq_getElem]
      simp only [vectOf, List.getElem_map]
      rw [List.getD_eq_getElem _ _ h0]
    rw [List.get_eq_getElem] at hval
    rw [hval] at hmm
    exact hmm
  exact lt_of_lt_of_le hpos (le_foldl_max _ 0 _ hmem)

end FDTD

namespace FDTD

/-- C2: for a source whose sampled line has at least two coordinates, the
registered profile equals the spec's reference construction
(`specGaussProfile`: Gaussian of the squared midpoint distance, normalized
to total 1, scaled by `sqrt(power * inverse permittivity)` elementwise),
and the normalized weights sum to 1 before amplitude scaling. -/
theorem claim_C2 (invPerm : ℤ × ℤ × ℤ → ℝ) (p0 p1 : ℤ × ℤ × ℤ)
    (period power phase : ℝ) (hL : 2 ≤ (coordsOf p0 p1).length) :
    registerGrid invPerm (SourceSpec.mk p0 p1 period power phase)
      = RegResult.ok ⟨period, phase, (getLocation p0 p1).1, (getLocation p0 p1).2.1,
          (getLocation p0 p1).2.2, specGaussProfile invPerm power (coordsOf p0 p1)⟩
    ∧ ((rawProfile (coordsOf p0 p1)).map
        (fun w => w / (rawProfile (coordsOf p0 p1)).sum)).sum = 1 := by
  have hm2 : 2 ≤ maxSpan p0 p1 := by
    rw [← coordsOf_length p0 p1]
    exact hL
  have hmax := maxdOf_pos p0 p1 hm2
  have hne : coordsOf p0 p1 ≠ [] := by
    intro h
    rw [h] at hL
    simp at hL
  constructor
  · rw [registerGrid_def]
    dsimp only
    rw [if_neg (by simpa [List.isEmpty_iff] using hne), if_neg hmax.ne',
      codeProfile_eq_spec]
  · rw [sum_map_div, div_self (rawProfile_sum_pos _ hne).ne']

theorem claim_C2_witness :
    2 ≤ (coordsOf (0, 0, 0) (4, 0, 0)).length ∧
    (registerGrid uniformPerm (SourceSpec.mk (0, 0, 0) (4, 0, 0) 4 1 0)
      = RegResult.ok ⟨4, 0, (getLocation (0, 0, 0) (4, 0, 0)).1,
          (getLocation (0, 0, 0) (4, 0, 0)).2.1, (getLocation (0, 0, 0) (4, 0, 0)).2.2,
          specGaussProfile uniformPerm 1 (coordsOf (0, 0, 0) (4, 0, 0))⟩
    ∧ ((rawProfile (coordsOf (0, 0, 0) (4, 0, 0))).map
        (fun w => w / (rawProfile (coordsOf (0, 0, 0) (4, 0, 0))).sum)).sum = 1) :=
  ⟨by rw [coordsOf_length]; decide,
    claim_C2 uniformPerm (0, 0, 0) (4, 0, 0) 4 1 0 (by rw [coordsOf_length]; decide)⟩

end FDTD

namespace FDTD

theorem coords_single : coordsOf (0, 0, 0) (1, 0, 0) = [(0, 0, 0)] := by
  rw [coordsOf_eq (0, 0, 0) (1, 0, 0) (by decide)]
  decide

/-- C4 (refuted on the code): for the single-point line from `(0,0,0)` to
`(1,0,0)` the registration reaches `vect.max() == 0`, so the Gaussian
exponent is the unguarded IEEE division `-0/0` and the whole profile is
`NaN` — there is no guard treating the single-point source as weight 1. -/
theorem claim_C4 :
    registerGrid uniformPerm (SourceSpec.mk (0, 0, 0) (1, 0, 0) 1 1 0)
      = RegResult.nan := by
  rw [registerGrid_def]
  dsimp only
  rw [coords_single, if_neg (by decide), if_pos (by decide)]

theorem coords_four :
    coordsOf (0, 0, 0) (4, 0, 0) = [(0, 0, 0), (1, 0, 0), (2, 0, 0), (3, 0, 0)] := by
  rw [coordsOf_eq (0, 0, 0) (4, 0, 0) (by decide)]
  decide

theorem rawProfile_four :
    rawProfile [(0, 0, 0), (1, 0, 0), (2, 0, 0), (3, 0, 0)]
      = [gauss 4 4, gauss 4 1, gauss 4 0, gauss 4 1] := by
  have hv : vectOf [(0, 0, 0), (1, 0, 0), (2, 0, 0), (3, 0, 0)] = [4, 1, 0, 1] := by decide
  have hm4 : maxdOf [(0, 0, 0), (1, 0, 0), (2, 0, 0), (3, 0, 0)] = 4 := by decide
  simp only [rawProfile, hv, hm4, List.map_cons, List.map_nil]

/-- C7 (refuted on the code): a source with `period = 0` and `power = 0` is
accepted by `register_grid` without any validation; the zero period is kept
for `update_E` (whose waveform divides by it) and the zero power silently
yields an all-zero profile.  No configuration error is raised. -/
theorem claim_C7 :
    registerGrid uniformPerm (SourceSpec.mk (0, 0, 0) (4, 0, 0) 0 0 0)
      = RegResult.ok ⟨0, 0, (getLocation (0, 0, 0) (4, 0, 0)).1,
          (getLocation (0, 0, 0) (4, 0, 0)).2.1, (getLocation (0, 0, 0) (4, 0, 0)).2.2,
          codeProfile uniformPerm 0 (coordsOf (0, 0, 0) (4, 0, 0))⟩
    ∧ codeProfile uniformPerm 0 (coordsOf (0, 0, 0) (4, 0, 0)) = [0, 0, 0, 0] := by
  constructor
  · rw [registerGrid_def]
    dsimp only
    rw [coords_four, if_neg (by decide), if_neg (by decide)]
  · rw [coords_four]
    simp only [codeProfile, rawProfile_four, amplitude, uniformPerm]
    norm_num [List.zip]

end FDTD

namespace FDTD

theorem codeProfile_getD (invPerm : ℤ × ℤ × ℤ → ℝ) (power : ℝ)
    (cs : List (ℤ × ℤ × ℤ)) (i : ℕ) (hi : i < cs.length) :
    (codeProfile invPerm power cs).getD i 0
      = gauss (maxdOf cs) (sqDist (cs.getD i (0, 0, 0)) (cs.getD (cs.length / 2) (0, 0, 0)))
        / (rawProfile cs).sum * amplitude invPerm power (cs.getD i (0, 0, 0)) := by
  have hlen : i < (codeProfile invPerm power cs).length := by
    simp only [codeProfile, List.length_map, List.length_zip, rawProfile_length,
      min_self]
    exact hi
  rw [List.getD_eq_getElem _ _ hlen]
  simp only [codeProfile, List.getElem_map, List.getElem_zip, rawProfile, vectOf]
  rw [List.getD_eq_getElem _ _ hi]

theorem gauss_sum_four_pos : 0 < gauss 4 4 + (gauss 4 1 + (gauss 4 0 + gauss 4 1)) := by
  simp only [gauss]
  positivity

/-- C5 counterexample: for the uniform-permittivity source from `(0,0,0)` to
`(4,0,0)` (an even line length `L = 4`), the profile is not symmetric about
the midpoint: `profile[0] ≠ profile[L-1]`, because the half-open sampled
points `0,1,2,3` are not symmetric about the midpoint index 2. -/
theorem claim_C5_counterexample :
    ¬ ((codeProfile uniformPerm 1 (coordsOf (0, 0, 0) (4, 0, 0))).getD 0 0
      = (codeProfile uniformPerm 1 (coordsOf (0, 0, 0) (4, 0, 0))).getD 3 0) := by
  intro hcon
  rw [coords_four] at hcon
  rw [codeProfile_getD uniformPerm 1 _ 0 (by decide),
    codeProfile_getD uniformPerm 1 _ 3 (by decide), rawProfile_four] at hcon
  have hd0 : sqDist ([(0, 0, 0), (1, 0, 0), (2, 0, 0), (3, 0, 0)].getD 0 (0, 0, 0))
      ([(0, 0, 0), (1, 0, 0), (2, 0, 0), (3, 0, 0)].getD
        ([(0, 0, 0), (1, 0, 0), (2, 0, 0), (3, 0, 0)].length / 2) (0, 0, 0)) = 4 := by decide
  have hd3 : sqDist ([(0, 0, 0), (1, 0, 0), (2, 0, 0), (3, 0, 0)].getD 3 (0, 0, 0))
      ([(0, 0, 0), (1, 0, 0), (2, 0, 0), (3, 0, 0)].getD
        ([(0, 0, 0), (1, 0, 0), (2, 0, 0), (3, 0, 0)].length / 2) (0, 0, 0)) = 1 := by decide
  have hmd : maxdOf [(0, 0, 0), (1, 0, 0), (2, 0, 0), (3, 0, 0)] = 4 := by decide
  simp only [hd0, hd3, hmd] at hcon
  simp only [List.sum_cons, List.sum_nil, add_zero, amplitude, uniformPerm] at hcon
  have hS := gauss_sum_four_pos
  have hsq : Real.sqrt (1 * 1) ≠ 0 := by
    rw [one_mul, Real.sqrt_one]
    norm_num
  have h2 := mul_right_cancel₀ hsq hcon
  have heq : gauss 4 4 = gauss 4 1 := by
    have h3 : gauss 4 4 * (gauss 4 4 + (gauss 4 1 + (gauss 4 0 + gauss 4 1)))⁻¹
        = gauss 4 1 * (gauss 4 4 + (gauss 4 1 + (gauss 4 0 + gauss 4 1)))⁻¹ := by
      rw [← div_eq_mul_inv, ← div_eq_mul_inv]
      exact h2
    exact mul_right_cancel₀ (inv_ne_zero hS.ne') h3
  simp only [gauss] at heq
  have harg := Real.exp_injective heq
  norm_num at harg

end FDTD

namespace FDTD

theorem range_map_getD_lt {α : Type} (f : ℕ → α) (m i : ℕ) (hi : i < m) (d : α) :
    ((List.range m).map f).getD i d = f i := by
  have h : i < ((List.range m).map f).length := by simpa using hi
  rw [List.getD_eq_getElem _ _ h]
  simp [List.getElem_map, List.getElem_range]

theorem axis_line_coords (x0 : ℤ) (m : ℕ) (hm : 0 < m) :
    coordsOf (x0, 0, 0) (x0 + (m : ℤ), 0, 0)
      = (List.range m).map (fun i : ℕ => ((x0 + (i : ℤ), (0 : ℤ), (0 : ℤ)) : ℤ × ℤ × ℤ)) := by
  have hms : maxSpan (x0, 0, 0) (x0 + (m : ℤ), 0, 0) = m := by
    simp [maxSpan]
  rw [coordsOf_eq _ _ (by rw [hms]; exact hm), hms]
  apply List.map_congr_left
  intro i _hi
  have hd : ((x0 + (m : ℤ)) - x0).natAbs = m := by simp
  have h1 := sampleZ_delta_natAbs x0 (x0 + (m : ℤ)) m hm hd i
  have hsg : ((x0 + (m : ℤ)) - x0).sign = 1 := by
    rw [Int.sign_eq_one_iff_pos]
    have hsimp : (x0 + (m : ℤ)) - x0 = (m : ℤ) := by ring
    rw [hsimp]
    exact_mod_cast hm
  have h0 : sampleZ 0 0 m i = 0 := by
    simp [sampleZ]
  rw [h1, hsg, h0]
  simp

/-- C5 amended: for spatially uniform permittivity the midpoint symmetry
`profile[i] = profile[L-1-i]` holds when the sampled coordinates are
themselves symmetric about the midpoint index, e.g. for an axis-aligned
line of odd length `L = 2h+1`; the counterexample shows the claim fails as
stated for even `L` (the half-open sampling is then not symmetric). -/
theorem claim_C5 (c pw : ℝ) (x0 : ℤ) (h i : ℕ) (hi : i < 2 * h + 1) :
    (codeProfile (fun _ => c) pw
        (coordsOf (x0, 0, 0) (x0 + ((2 * h + 1 : ℕ) : ℤ), 0, 0))).getD i 0
      = (codeProfile (fun _ => c) pw
        (coordsOf (x0, 0, 0) (x0 + ((2 * h + 1 : ℕ) : ℤ), 0, 0))).getD (2 * h - i) 0 := by
  have hm : 0 < 2 * h + 1 := by omega
  rw [axis_line_coords x0 (2 * h + 1) hm]
  have hlen : ((List.range (2 * h + 1)).map
      (fun i : ℕ => ((x0 + (i : ℤ), (0 : ℤ), (0 : ℤ)) : ℤ × ℤ × ℤ))).length = 2 * h + 1 := by
    simp
  rw [codeProfile_getD _ _ _ i (by rw [hlen]; exact hi),
    codeProfile_getD _ _ _ (2 * h - i) (by rw [hlen]; omega)]
  rw [show ((List.range (2 * h + 1)).map
      (fun i : ℕ => ((x0 + (i : ℤ), (0 : ℤ), (0 : ℤ)) : ℤ × ℤ × ℤ))).length / 2 = h by
    rw [hlen]; omega]
  rw [range_map_getD_lt _ _ i hi (0, 0, 0),
    range_map_getD_lt _ _ (2 * h - i) (by omega) (0, 0, 0),
    range_map_getD_lt _ _ h (by omega) (0, 0, 0)]
  simp only [sqDist, amplitude]
  have hcast : ((2 * h - i : ℕ) : ℤ) = 2 * (h : ℤ) - (i : ℤ) := by omega
  rw [hcast]
  have hAB : (x0 + (i : ℤ) - (x0 + (h : ℤ))) ^ 2
      = (x0 + (2 * (h : ℤ) - (i : ℤ)) - (x0 + (h : ℤ))) ^ 2 := by
    ring
  rw [hAB]

theorem claim_C5_witness :
    (0 : ℕ) < 2 * 1 + 1 ∧
    (codeProfile (fun _ => (1 : ℝ)) 1
        (coordsOf (0, 0, 0) (0 + ((2 * 1 + 1 : ℕ) : ℤ), 0, 0))).getD 0 0
      = (codeProfile (fun _ => (1 : ℝ)) 1
        (coordsOf (0, 0, 0) (0 + ((2 * 1 + 1 : ℕ) : ℤ), 0, 0))).getD (2 * 1 - 0) 0 :=
  ⟨by decide, claim_C5 1 1 0 1 0 (by decide)⟩

end FDTD
